import Mathlib

/-!
Verification of the batch-dispatch behaviour of the zaban-client examples
(src/examples/basic_usage.py, async_usage.py, batch_translation.py).

The examples orchestrate concurrent remote translation calls with
asyncio.gather over fixed-size chunks of the input.  The definitions below
embed, as pure Lean functions, the pure core of that orchestration:

* `chunks` models the loop `for i in range(0, n, batch_size): batch = xs[i : i + batch_size]`;
* `translate_dataset` models the value returned by `translate_dataset`
  (batch_translation.py lines 69-123) on the all-success path, with the
  remote translation abstracted as a function `tr : String → String → String`;
* `translate_file` models the list of output lines written by
  `translate_file` (batch_translation.py lines 21-64);
* `fillSlots` / `gatherRun` model asyncio.gather's result assembly: tasks
  complete in an arbitrary order and each writes its result into the slot
  of its submission index;
* `firstFail` / `gatherExc` model asyncio.gather's exception behaviour with
  the default return_exceptions=False: the first task (in completion order)
  that raises makes gather raise that exception, discarding all results;
* `startsAux` / `chunkedStarts` model the start time of each invocation
  under the examples' chunked execution (each chunk is fully awaited before
  the next chunk starts; within a chunk all tasks start together);
* `tasksPerChunkDataset` / `maxConcurrentFile` etc. count how many
  invocations are simultaneously in flight.

The zaban library itself (client construction, request validation, the
remote invoker and its error taxonomy) is not part of the example sources;
where a claim depends on it, it is modelled from the specification and the
definition's doc comment says so.
-/

namespace ZabanClient

/-- Models the chunking loop of the examples: for i in range(0, n, batch_size)
the slice xs[i : i + batch_size].  Fuel-based recursion; `chunks` below
supplies fuel equal to the list length, which suffices whenever the chunk
size is at least 1 (Python raises ValueError on batch_size = 0). -/
def chunksGo (C : Nat) : Nat → List α → List (List α)
  | _, [] => []
  | 0, _ :: _ => []
  | fuel + 1, a :: l => ((a :: l).take C) :: chunksGo C fuel ((a :: l).drop C)

/-- The list of batches `xs[i : i + C]` for i = 0, C, 2C, ... -/
def chunks (C : Nat) (l : List α) : List (List α) := chunksGo C l.length l

/-- Maximum of a list of naturals (0 for the empty list). -/
def maxL (l : List Nat) : Nat := l.foldr max 0

/-- Models the value returned by translate_dataset (batch_translation.py
lines 69-123) when every remote call succeeds: texts are processed in
chunks of batch_size; inside a chunk one task is created per
(text, target_lang) pair, text-major; asyncio.gather returns the results in
task-creation order and zip(task_metadata, batch_results) pairs each result
with its (text, target_lang); the triples are appended in that order. -/
def translate_dataset (tr : String → String → String) (texts target_langs : List String)
    (batch_size : Nat) : List (String × String × String) :=
  (chunks batch_size texts).flatMap (fun batch_texts =>
    batch_texts.flatMap (fun text =>
      target_langs.map (fun target_lang => (text, target_lang, tr text target_lang))))

/-- Models the order in which the invocations of translate_dataset start:
chunks are executed strictly one after another, and inside a chunk
asyncio.gather schedules its tasks in creation order (text-major over the
target languages), so the start sequence lists the (text, target_lang)
pairs chunk by chunk, in creation order. -/
def startSeqDataset (C : Nat) (texts target_langs : List String) : List (String × String) :=
  (chunks C texts).flatMap (fun batch_texts =>
    batch_texts.flatMap (fun text =>
      target_langs.map (fun target_lang => (text, target_lang))))

/-- Python's str.strip(): remove leading and trailing whitespace. -/
def pyStrip (s : String) : String :=
  String.mk (((s.data.dropWhile Char.isWhitespace).reverse.dropWhile Char.isWhitespace).reverse)

/-- Models the list of output lines written by translate_file
(batch_translation.py lines 21-64): lines are processed in chunks of
batch_size; within a chunk, a task is created only for lines with
line.strip() non-empty (blank lines are skipped); each result contributes
result.translated_text + a newline, in task order. -/
def translate_file (tr : String → String) (lines : List String) (batch_size : Nat) :
    List String :=
  (chunks batch_size lines).flatMap (fun batch =>
    (batch.filter (fun line => pyStrip line != "")).map (fun line => tr (pyStrip line) ++ "\n"))

/-- Models asyncio.gather's result assembly: tasks complete in the order
given by `order` (a list of submission indices); a completing task with
index i writes its outcome eval (reqs[i]) into slot i of the result array.
Indices out of range are ignored. -/
def fillSlots (eval : α → β) (reqs : List α) : List Nat → List (Option β) → List (Option β)
  | [], slots => slots
  | i :: rest, slots =>
    match reqs[i]? with
    | some r => fillSlots eval reqs rest (slots.set i (some (eval r)))
    | none => fillSlots eval reqs rest slots

/-- The result array of asyncio.gather after all completions in `order`,
starting from an all-unresolved array of length reqs.length. -/
def gatherRun (eval : α → β) (reqs : List α) (order : List Nat) : List (Option β) :=
  fillSlots eval reqs order (List.replicate reqs.length none)

/-- The error of the first task, in completion order, whose outcome is an
exception (none if no completed task raised). -/
def firstFail (outs : List (Except ε α)) : List Nat → Option ε
  | [] => none
  | i :: rest =>
    match outs[i]? with
    | some (Except.error e) => some e
    | _ => firstFail outs rest

/-- The successful payloads of a list of outcomes, in order. -/
def okValues (outs : List (Except ε α)) : List α :=
  outs.filterMap (fun o => o.toOption)

/-- Models asyncio.gather with the default return_exceptions=False over
per-task outcomes `outs`, completing in the order `order`: if some task
raises, gather raises that first exception and all results are discarded;
otherwise it returns the full result list in submission order. -/
def gatherExc (outs : List (Except ε α)) (order : List Nat) : Except ε (List α) :=
  match firstFail outs order with
  | some e => Except.error e
  | none => Except.ok (okValues outs)

/-- Start time of every item under the examples' chunked execution, given
the list of chunks and the start time of the first chunk: all items of a
chunk start when the chunk starts, and the next chunk starts once the
slowest item of the current chunk (duration maxL c) has completed. -/
def startsAux : List (List Nat) → Nat → List Nat
  | [], _ => []
  | c :: cs, t => (c.map (fun _ => t)) ++ startsAux cs (t + maxL c)

/-- Start time of each invocation (by submission index) when items with the
given durations are executed in chunks of size C, each chunk fully awaited
before the next starts — the execution shape of translate_file and
translate_dataset. -/
def chunkedStarts (C : Nat) (durations : List Nat) : List Nat :=
  startsAux (chunks C durations) 0

/-- Modelled from the spec: sliding-window admission with C slots — a new
invocation is admitted as soon as any in-flight slot frees (the next item
starts when the earliest-finishing outstanding item completes).  This is
the admission policy the specification describes in section 4.3; it is the
comparison point for the refinement claim, not code of the repository. -/
def slideAux : List Nat → List Nat → List Nat
  | _, [] => []
  | slots, d :: ds =>
    ((slots.min?).getD 0) ::
      slideAux ((slots.erase ((slots.min?).getD 0)) ++ [((slots.min?).getD 0) + d]) ds

/-- Start time of each invocation under sliding-window admission with C
slots, all initially free at time 0. -/
def slidingStarts (C : Nat) (durations : List Nat) : List Nat :=
  slideAux (List.replicate C 0) durations

/-- Number of concurrent tasks issued by each iteration of the chunk loop of
translate_dataset: the chunk holds up to batch_size texts and one task is
created per (text, target_lang) pair, all passed to one asyncio.gather. -/
def tasksPerChunkDataset (C : Nat) (texts : List String) (numLangs : Nat) : List Nat :=
  (chunks C texts).map (fun c => c.length * numLangs)

/-- The largest number of simultaneously in-flight invocations over the run
of translate_dataset. -/
def maxConcurrentDataset (C : Nat) (texts : List String) (numLangs : Nat) : Nat :=
  maxL (tasksPerChunkDataset C texts numLangs)

/-- Number of concurrent tasks issued by each iteration of the chunk loop of
translate_file: one task per non-blank line of the chunk. -/
def tasksPerChunkFile (C : Nat) (lines : List String) : List Nat :=
  (chunks C lines).map (fun c => (c.filter (fun line => pyStrip line != "")).length)

/-- The largest number of simultaneously in-flight invocations over the run
of translate_file. -/
def maxConcurrentFile (C : Nat) (lines : List String) : Nat :=
  maxL (tasksPerChunkFile C lines)

/-- Modelled from the spec: the error taxonomy of the zaban library (the
library itself is not under the example sources): ValidationError,
AuthenticationError, TransportError, ApiError. -/
inductive ZError where
  | validationError
  | authenticationError
  | transportError
  | apiError
deriving DecidableEq, Repr

/-- A translation request descriptor: operation parameters for one
translation call (text, target language). -/
structure TransReq where
  text : String
  targetLang : String
deriving DecidableEq, Repr

/-- Modelled from the spec: construction of a translation RequestDescriptor
in the zaban library (not under the example sources) validates its
parameters — text non-empty, target language code non-empty — and yields
ValidationError at construction time on invalid input. -/
def mkTranslateReq (text targetLang : String) : Except ZError TransReq :=
  if text = "" then Except.error ZError.validationError
  else if targetLang = "" then Except.error ZError.validationError
  else Except.ok ⟨text, targetLang⟩

/-- Modelled from the spec: the Remote Invoker of the zaban library (not
under the example sources) performs one request with an attached
credential; an absent or invalid credential yields AuthenticationError,
otherwise the translated text is returned. -/
def invoke (credValid : Bool) (tr : String → String → String) (r : TransReq) :
    Except ZError String :=
  if credValid then Except.ok (tr r.text r.targetLang)
  else Except.error ZError.authenticationError

/-- Modelled from the spec: submitting one translation — construct the
descriptor, then (only if construction succeeded) invoke it over the
network.  The second component counts network calls attempted. -/
def submitOne (credValid : Bool) (tr : String → String → String)
    (text targetLang : String) : Except ZError String × Nat :=
  match mkTranslateReq text targetLang with
  | Except.error e => (Except.error e, 0)
  | Except.ok r => (invoke credValid tr r, 1)

/-! Helper lemmas about the chunking loop. -/

theorem chunksGo_flatten {α : Type u} (C : Nat) (hC : 1 ≤ C) :
    ∀ (fuel : Nat) (l : List α), l.length ≤ fuel → (chunksGo C fuel l).flatten = l := by
  intro fuel
  induction fuel with
  | zero =>
    intro l hl
    cases l with
    | nil => simp [chunksGo]
    | cons a t => simp at hl
  | succ fuel ih =>
    intro l hl
    cases l with
    | nil => simp [chunksGo]
    | cons a t =>
      rw [chunksGo, List.flatten_cons, ih (List.drop C (a :: t))]
      · exact List.take_append_drop C (a :: t)
      · rw [List.length_drop]
        simp only [List.length_cons] at hl ⊢
        omega

theorem chunks_flatten {α : Type u} (C : Nat) (hC : 1 ≤ C) (l : List α) :
    (chunks C l).flatten = l :=
  chunksGo_flatten C hC l.length l le_rfl

theorem chunksGo_mem_length {α : Type u} (C : Nat) :
    ∀ (fuel : Nat) (l : List α) (c : List α), c ∈ chunksGo C fuel l → c.length ≤ C := by
  intro fuel
  induction fuel with
  | zero =>
    intro l c hc
    cases l with
    | nil => simp [chunksGo] at hc
    | cons a t => simp [chunksGo] at hc
  | succ fuel ih =>
    intro l c hc
    cases l with
    | nil => simp [chunksGo] at hc
    | cons a t =>
      rw [chunksGo] at hc
      rcases List.mem_cons.mp hc with h | h
      · subst h
        rw [List.length_take]
        exact min_le_left _ _
      · exact ih _ _ h

theorem chunks_mem_length {α : Type u} (C : Nat) (l : List α) (c : List α)
    (hc : c ∈ chunks C l) : c.length ≤ C :=
  chunksGo_mem_length C l.length l c hc

theorem flatMap_chunks_eq {α : Type u} {β : Type v} (g : α → List β) :
    ∀ ll : List (List α), ll.flatMap (fun c => c.flatMap g) = ll.flatten.flatMap g := by
  intro ll
  induction ll with
  | nil => simp
  | cons c cs ih => simp [ih]

theorem filter_map_chunks_eq {α : Type u} {β : Type v} (p : α → Bool) (f : α → β) :
    ∀ ll : List (List α),
      ll.flatMap (fun c => (c.filter p).map f) = (ll.flatten.filter p).map f := by
  intro ll
  induction ll with
  | nil => simp
  | cons c cs ih => simp [ih, List.filter_append, List.map_append]

/-! Helper lemmas about maxL. -/

theorem le_maxL {x : Nat} {l : List Nat} (hx : x ∈ l) : x ≤ maxL l := by
  induction l with
  | nil => cases hx
  | cons a t ih =>
    simp only [maxL, List.foldr_cons]
    rcases List.mem_cons.mp hx with h | h
    · subst h; exact Nat.le_max_left _ _
    · exact le_trans (ih h) (Nat.le_max_right _ _)

theorem maxL_le {b : Nat} {l : List Nat} (h : ∀ x ∈ l, x ≤ b) : maxL l ≤ b := by
  induction l with
  | nil => simp [maxL]
  | cons a t ih =>
    simp only [maxL, List.foldr_cons, Nat.max_le]
    refine ⟨h a (by simp), ?_⟩
    exact ih (fun x hx => h x (List.mem_cons_of_mem _ hx))

/-! Structural form of the dataset and file translations. -/

theorem translate_dataset_eq (tr : String → String → String)
    (texts target_langs : List String) (C : Nat) (hC : 1 ≤ C) :
    translate_dataset tr texts target_langs C
      = texts.flatMap (fun text =>
          target_langs.map (fun target_lang => (text, target_lang, tr text target_lang))) := by
  unfold translate_dataset
  rw [flatMap_chunks_eq, chunks_flatten C hC]

theorem translate_file_eq (tr : String → String) (lines : List String) (C : Nat)
    (hC : 1 ≤ C) :
    translate_file tr lines C
      = (lines.filter (fun line => pyStrip line != "")).map
          (fun line => tr (pyStrip line) ++ "\n") := by
  unfold translate_file
  rw [filter_map_chunks_eq, chunks_flatten C hC]

theorem length_flatMap_map {α : Type u} {β : Type v} {γ : Type w}
    (f : α → β → γ) (texts : List α) (langs : List β) :
    (texts.flatMap (fun t => langs.map (f t))).length = texts.length * langs.length := by
  induction texts with
  | nil => simp
  | cons t ts ih => simp [ih, Nat.succ_mul]; omega

/-! Helper lemmas about the gather result-assembly model. -/

theorem length_fillSlots {α : Type u} {β : Type v} (eval : α → β) (reqs : List α) :
    ∀ (order : List Nat) (slots : List (Option β)),
      (fillSlots eval reqs order slots).length = slots.length := by
  intro order
  induction order with
  | nil => intro slots; rfl
  | cons i rest ih =>
    intro slots
    cases h : reqs[i]? with
    | some r => simp only [fillSlots, h]; rw [ih, List.length_set]
    | none => simp only [fillSlots, h]; exact ih slots

theorem fillSlots_not_mem {α : Type u} {β : Type v} (eval : α → β) (reqs : List α) :
    ∀ (order : List Nat) (slots : List (Option β)) (k : Nat), k ∉ order →
      (fillSlots eval reqs order slots)[k]? = slots[k]? := by
  intro order
  induction order with
  | nil => intro slots k _; rfl
  | cons i rest ih =>
    intro slots k hk
    have hki : k ≠ i := fun h => hk (h ▸ List.mem_cons_self i rest)
    have hkr : k ∉ rest := fun h => hk (List.mem_cons_of_mem _ h)
    cases h : reqs[i]? with
    | some r =>
      simp only [fillSlots, h]
      rw [ih _ _ hkr, List.getElem?_set, if_neg (Ne.symm hki)]
    | none =>
      simp only [fillSlots, h]
      exact ih _ _ hkr

theorem fillSlots_complete {α : Type u} {β : Type v} (eval : α → β) (reqs : List α) :
    ∀ (order : List Nat) (slots : List (Option β)) (k : Nat),
      slots.length = reqs.length → k ∈ order → k < reqs.length →
      (fillSlots eval reqs order slots)[k]? = (reqs[k]?).map (fun r => some (eval r)) := by
  intro order
  induction order with
  | nil => intro slots k _ hk _; cases hk
  | cons i rest ih =>
    intro slots k hlen hk hkreq
    by_cases hkr : k ∈ rest
    · cases h : reqs[i]? with
      | some r =>
        simp only [fillSlots, h]
        exact ih _ k (by rw [List.length_set]; exact hlen) hkr hkreq
      | none =>
        simp only [fillSlots, h]
        exact ih _ k hlen hkr hkreq
    · have hki : k = i := by
        rcases List.mem_cons.mp hk with h | h
        · exact h
        · exact absurd h hkr
      subst hki
      have hsome : reqs[k]? = some reqs[k] := List.getElem?_eq_getElem hkreq
      simp only [fillSlots, hsome]
      rw [fillSlots_not_mem eval reqs rest _ k hkr, List.getElem?_set, if_pos rfl,
        if_pos (by rw [hlen]; exact hkreq)]
      rfl

theorem gatherRun_eq {α : Type u} {β : Type v} (eval : α → β) (reqs : List α)
    (order : List Nat) (hcov : ∀ k, k < reqs.length → k ∈ order) :
    gatherRun eval reqs order = reqs.map (fun r => some (eval r)) := by
  apply List.ext_getElem?
  intro n
  by_cases hn : n < reqs.length
  · rw [gatherRun, fillSlots_complete eval reqs order _ n
      (List.length_replicate _ _) (hcov n hn) hn, List.getElem?_map]
  · have h1 : (gatherRun eval reqs order).length ≤ n := by
      rw [gatherRun, length_fillSlots, List.length_replicate]; omega
    rw [List.getElem?_eq_none h1,
      List.getElem?_eq_none (by rw [List.length_map]; omega)]

/-! Helper lemmas about the gather exception model. -/

theorem firstFail_some_of_error {ε : Type u} {α : Type v} (outs : List (Except ε α)) :
    ∀ (order : List Nat) (i : Nat) (e : ε), i ∈ order →
      outs[i]? = some (Except.error e) → ∃ e2, firstFail outs order = some e2 := by
  intro order
  induction order with
  | nil => intro i e hi _; cases hi
  | cons j rest ih =>
    intro i e hi he
    cases h : outs[j]? with
    | some o =>
      cases o with
      | error e3 => exact ⟨e3, by simp only [firstFail, h]⟩
      | ok a =>
        have hij : i ≠ j := fun hq => by rw [hq, h] at he; cases he
        have hir : i ∈ rest := by
          rcases List.mem_cons.mp hi with hq | hq
          · exact absurd hq hij
          · exact hq
        obtain ⟨e2, he2⟩ := ih i e hir he
        exact ⟨e2, by simp only [firstFail, h]; exact he2⟩
    | none =>
      have hij : i ≠ j := fun hq => by rw [hq, h] at he; cases he
      have hir : i ∈ rest := by
        rcases List.mem_cons.mp hi with hq | hq
        · exact absurd hq hij
        · exact hq
      obtain ⟨e2, he2⟩ := ih i e hir he
      exact ⟨e2, by simp only [firstFail, h]; exact he2⟩

theorem firstFail_none_of_ok {ε : Type u} {α : Type v} (vals : List α) :
    ∀ order : List Nat, firstFail (vals.map (Except.ok (ε := ε))) order = none := by
  intro order
  induction order with
  | nil => rfl
  | cons j rest ih =>
    cases h : (vals.map (Except.ok (ε := ε)))[j]? with
    | some o =>
      have : ∃ a, o = Except.ok a := by
        rw [List.getElem?_map] at h
        cases hv : vals[j]? with
        | some v => rw [hv] at h; exact ⟨v, by cases h; rfl⟩
        | none => rw [hv] at h; cases h
      obtain ⟨a, rfl⟩ := this
      simp only [firstFail, h]
      exact ih
    | none =>
      simp only [firstFail, h]
      exact ih

theorem okValues_map_ok {ε : Type u} {α : Type v} (vals : List α) :
    okValues (vals.map (Except.ok (ε := ε))) = vals := by
  induction vals with
  | nil => rfl
  | cons v t ih => simp only [okValues, List.map_cons, List.filterMap_cons] at ih ⊢; rw [ih]; rfl

theorem firstFail_uniform {ε : Type u} {α : Type v} (outs : List (Except ε α)) (e : ε)
    (hall : ∀ j, j < outs.length → outs[j]? = some (Except.error e)) :
    ∀ (order : List Nat) (i : Nat), i ∈ order → i < outs.length →
      firstFail outs order = some e := by
  intro order
  induction order with
  | nil => intro i hi _; cases hi
  | cons j rest ih =>
    intro i hi hilen
    by_cases hj : j < outs.length
    · simp only [firstFail, hall j hj]
    · have hnone : outs[j]? = none := List.getElem?_eq_none (by omega)
      have hij : i ≠ j := by intro hq; subst hq; exact hj hilen
      have hir : i ∈ rest := by
        rcases List.mem_cons.mp hi with hq | hq
        · exact absurd hq hij
        · exact hq
      simp only [firstFail, hnone]
      exact ih i hir hilen

/-! Helper lemmas about the chunked start-time model. -/

theorem chunksGo_fuel_irrel {α : Type u} (C : Nat) (hC : 1 ≤ C) :
    ∀ (fuel1 : Nat) (l : List α) (fuel2 : Nat), l.length ≤ fuel1 → l.length ≤ fuel2 →
      chunksGo C fuel1 l = chunksGo C fuel2 l := by
  intro fuel1
  induction fuel1 with
  | zero =>
    intro l fuel2 h1 h2
    cases l with
    | nil => cases fuel2 <;> rfl
    | cons a t => simp at h1
  | succ fuel ih =>
    intro l fuel2 h1 h2
    cases l with
    | nil => cases fuel2 <;> rfl
    | cons a t =>
      cases fuel2 with
      | zero => simp at h2
      | succ fuel2 =>
        simp only [chunksGo]
        congr 1
        apply ih
        · rw [List.length_drop]; simp only [List.length_cons] at h1 ⊢; omega
        · rw [List.length_drop]; simp only [List.length_cons] at h2 ⊢; omega

theorem chunks_cons {α : Type u} (C : Nat) (hC : 1 ≤ C) (a : α) (l : List α) :
    chunks C (a :: l) = ((a :: l).take C) :: chunks C ((a :: l).drop C) := by
  unfold chunks
  rw [show (a :: l).length = l.length + 1 from rfl]
  simp only [chunksGo]
  congr 1
  apply chunksGo_fuel_irrel C hC
  · rw [List.length_drop]; simp only [List.length_cons]; omega
  · exact le_rfl

theorem startsAux_shift : ∀ (cs : List (List Nat)) (t : Nat),
    startsAux cs t = (startsAux cs 0).map (fun x => t + x) := by
  intro cs
  induction cs with
  | nil => intro t; rfl
  | cons c cs ih =>
    intro t
    simp only [startsAux, List.map_append, Nat.zero_add]
    congr 1
    · rw [List.map_map]
      congr 1
    · rw [ih (t + maxL c), ih (maxL c), List.map_map]
      congr 1
      funext x
      simp [Nat.add_assoc]

theorem length_startsAux : ∀ (cs : List (List Nat)) (t : Nat),
    (startsAux cs t).length = cs.flatten.length := by
  intro cs
  induction cs with
  | nil => intro t; rfl
  | cons c cs ih =>
    intro t
    simp only [startsAux, List.length_append, List.length_map, List.flatten_cons]
    rw [ih]

theorem length_chunkedStarts (C : Nat) (hC : 1 ≤ C) (ds : List Nat) :
    (chunkedStarts C ds).length = ds.length := by
  unfold chunkedStarts
  rw [length_startsAux, chunks_flatten C hC]

theorem chunkedStarts_cons (C : Nat) (hC : 1 ≤ C) (a : Nat) (l : List Nat) :
    chunkedStarts C (a :: l)
      = ((a :: l).take C).map (fun _ => 0)
        ++ (chunkedStarts C ((a :: l).drop C)).map (fun x => maxL ((a :: l).take C) + x) := by
  unfold chunkedStarts
  rw [chunks_cons C hC]
  simp only [startsAux, Nat.zero_add]
  rw [startsAux_shift]

theorem getD_map_const {α : Type u} (t : Nat) (l : List α) (i : Nat) (h : i < l.length) :
    (l.map (fun _ => t)).getD i 0 = t := by
  rw [List.getD_eq_getElem?_getD, List.getElem?_map, List.getElem?_eq_getElem h]
  rfl

theorem getD_map_add (t : Nat) (l : List Nat) (i : Nat) (h : i < l.length) :
    (l.map (fun x => t + x)).getD i 0 = t + l.getD i 0 := by
  rw [List.getD_eq_getElem?_getD, List.getElem?_map, List.getElem?_eq_getElem h,
    List.getD_eq_getElem?_getD, List.getElem?_eq_getElem h]
  rfl

theorem getD_mem (l : List Nat) (i : Nat) (h : i < l.length) : l.getD i 0 ∈ l := by
  rw [List.getD_eq_getElem?_getD, List.getElem?_eq_getElem h]
  exact List.getElem_mem h

theorem getD_take (ds : List Nat) (C i : Nat) (hiC : i < C) :
    (ds.take C).getD i 0 = ds.getD i 0 := by
  rw [List.getD_eq_getElem?_getD, List.getD_eq_getElem?_getD, List.getElem?_take,
    if_pos hiC]

theorem getD_drop (ds : List Nat) (C i : Nat) (hiC : C ≤ i) :
    (ds.drop C).getD (i - C) 0 = ds.getD i 0 := by
  rw [List.getD_eq_getElem?_getD, List.getD_eq_getElem?_getD, List.getElem?_drop,
    Nat.add_sub_cancel' hiC]

theorem chunkedStarts_getD_lt (C : Nat) (hC : 1 ≤ C) (ds : List Nat) (i : Nat)
    (hiC : i < C) (hi : i < ds.length) : (chunkedStarts C ds).getD i 0 = 0 := by
  cases ds with
  | nil => simp at hi
  | cons a l =>
    rw [chunkedStarts_cons C hC]
    have hlen : i < ((a :: l).take C).length := by
      rw [List.length_take]
      exact lt_min hiC hi
    rw [List.getD_append _ _ _ _ (by rw [List.length_map]; exact hlen)]
    exact getD_map_const 0 _ i hlen

theorem chunkedStarts_getD_ge (C : Nat) (hC : 1 ≤ C) (ds : List Nat) (i : Nat)
    (hiC : C ≤ i) (hi : i < ds.length) :
    (chunkedStarts C ds).getD i 0
      = maxL (ds.take C) + (chunkedStarts C (ds.drop C)).getD (i - C) 0 := by
  cases ds with
  | nil => simp at hi
  | cons a l =>
    have htl : ((a :: l).take C).length = C := by
      rw [List.length_take]
      simp only [List.length_cons] at hi ⊢
      omega
    rw [chunkedStarts_cons C hC,
      List.getD_append_right _ _ _ _ (by rw [List.length_map, htl]; exact hiC),
      List.length_map, htl]
    exact getD_map_add _ _ _ (by
      rw [length_chunkedStarts C hC, List.length_drop]
      simp only [List.length_cons] at hi ⊢
      omega)

/-! Claim theorems. -/

/-- Claim C1: for every batch of N submitted requests, the result sequence
assembled by asyncio.gather has exactly N entries and entry i is the
outcome of request i, for every completion order in which each submitted
task eventually completes; every request yields exactly one outcome and no
outcome appears without a corresponding request. -/
theorem C1_batch_result_order_matched {α : Type u} {β : Type v} (eval : α → β)
    (reqs : List α) (order : List Nat) (hcov : ∀ k, k < reqs.length → k ∈ order) :
    gatherRun eval reqs order = reqs.map (fun r => some (eval r))
      ∧ (gatherRun eval reqs order).length = reqs.length := by
  have h := gatherRun_eq eval reqs order hcov
  exact ⟨h, by rw [h, List.length_map]⟩

/-- Witness for C1 at a concrete batch of three requests completing in the
order 2, 0, 1. -/
theorem C1_batch_result_order_matched_w :
    gatherRun (fun n : Nat => n + 1) [10, 20, 30] [2, 0, 1]
        = [some 11, some 21, some 31]
      ∧ (gatherRun (fun n : Nat => n + 1) [10, 20, 30] [2, 0, 1]).length = 3 := by
  have h := C1_batch_result_order_matched (fun n : Nat => n + 1) [10, 20, 30] [2, 0, 1]
    (by decide)
  exact ⟨by rw [h.1]; rfl, h.2⟩

/-- Counterexample to claim C2 as stated: a batch of three outcomes whose
second task fails; asyncio.gather with return_exceptions unset, as the
examples call it, raises instead of returning a full result enumerating
every outcome. -/
theorem C2_cex :
    gatherExc [Except.ok 1, Except.error ZError.transportError, Except.ok 3] [0, 1, 2]
        = Except.error ZError.transportError
      ∧ ¬ ∃ res : List Nat,
          gatherExc [Except.ok 1, Except.error ZError.transportError, Except.ok 3] [0, 1, 2]
            = Except.ok res := by
  refine ⟨rfl, ?_⟩
  rintro ⟨res, hres⟩
  have h2 : (Except.error ZError.transportError : Except ZError (List Nat))
      = Except.ok res := hres
  cases h2

/-- Claim C2 (amended): fault isolation does not hold in the example code:
asyncio.gather is called with the default return_exceptions=False, so if
any invocation of the batch fails, the batch operation raises the first
exception in completion order and no result is returned; only when every
invocation succeeds does it return the full result list, order-matched to
the input. -/
theorem C2_failing_item_aborts_batch {ε : Type u} {α : Type v}
    (outs : List (Except ε α)) (order : List Nat) :
    ((∃ i ∈ order, ∃ e, outs[i]? = some (Except.error e)) →
        ∃ e2, gatherExc outs order = Except.error e2)
      ∧ (∀ vals : List α, outs = vals.map Except.ok →
          gatherExc outs order = Except.ok vals) := by
  constructor
  · rintro ⟨i, hi, e, he⟩
    obtain ⟨e2, he2⟩ := firstFail_some_of_error outs order i e hi he
    exact ⟨e2, by simp only [gatherExc, he2]⟩
  · rintro vals rfl
    simp only [gatherExc, firstFail_none_of_ok, okValues_map_ok]

/-- Witness for C2 discharging both hypotheses at concrete batches. -/
theorem C2_failing_item_aborts_batch_w :
    (∃ e2, gatherExc [Except.ok 1, Except.error ZError.apiError, Except.ok 3] [1, 0, 2]
        = Except.error e2)
      ∧ gatherExc ([4, 5].map (Except.ok (ε := ZError))) [0, 1] = Except.ok [4, 5] := by
  constructor
  · exact (C2_failing_item_aborts_batch
      [Except.ok 1, Except.error ZError.apiError, Except.ok 3] [1, 0, 2]).1
      ⟨1, by decide, ZError.apiError, by rfl⟩
  · exact (C2_failing_item_aborts_batch ([4, 5].map (Except.ok (ε := ZError))) [0, 1]).2
      [4, 5] rfl

/-- Claim C3: the translate_dataset docstring promises batch_size concurrent
translations, but the code issues chunk-size times number-of-target-languages
concurrent invocations: with batch_size 2, two texts and two target
languages, 4 invocations are in flight at once, exceeding the documented
cap of 2; translate_file, by contrast, respects the cap. -/
theorem C3_dataset_exceeds_cap :
    maxConcurrentDataset 2 ["a", "b"] 2 = 4
      ∧ ¬ (maxConcurrentDataset 2 ["a", "b"] 2 ≤ 2)
      ∧ maxConcurrentFile 2 ["a", "b"] ≤ 2 := by
  exact ⟨by decide, by decide, by decide⟩

/-- Counterexample to claim C4 as stated: with an invalid credential, the
two invocations of the batch each resolve to AuthenticationError, but the
batch dispatch raises — asyncio.gather propagates the error — rather than
returning a complete batch result. -/
theorem C4_cex :
    gatherExc
        (([TransReq.mk "Hello" "hin_Deva", TransReq.mk "Goodbye" "hin_Deva"]).map
          (invoke false (fun t _ => t))) [0, 1]
        = Except.error ZError.authenticationError
      ∧ ¬ ∃ res : List String,
          gatherExc
              (([TransReq.mk "Hello" "hin_Deva", TransReq.mk "Goodbye" "hin_Deva"]).map
                (invoke false (fun t _ => t))) [0, 1]
            = Except.ok res := by
  refine ⟨rfl, ?_⟩
  rintro ⟨res, hres⟩
  have h2 : (Except.error ZError.authenticationError : Except ZError (List String))
      = Except.ok res := hres
  cases h2

/-- Claim C4 (amended): when the attached credential is invalid every
invocation of the batch resolves to Failure(AuthenticationError), and the
batch dispatch raises AuthenticationError — asyncio.gather propagates it —
instead of returning the batch result.  The remote invoker is modelled
from the spec, as the zaban library is not part of the example sources. -/
theorem C4_invalid_credential_batch (tr : String → String → String)
    (reqs : List TransReq) (order : List Nat) (i : Nat)
    (hi : i ∈ order) (hilen : i < reqs.length) :
    (∀ r ∈ reqs, invoke false tr r = Except.error ZError.authenticationError)
      ∧ gatherExc (reqs.map (invoke false tr)) order
          = Except.error ZError.authenticationError := by
  constructor
  · intro r _; rfl
  · have hall : ∀ j, j < (reqs.map (invoke false tr)).length →
        (reqs.map (invoke false tr))[j]? = some (Except.error ZError.authenticationError) := by
      intro j hj
      rw [List.length_map] at hj
      rw [List.getElem?_map, List.getElem?_eq_getElem hj]
      rfl
    have hff := firstFail_uniform (reqs.map (invoke false tr)) ZError.authenticationError hall
      order i hi (by rw [List.length_map]; exact hilen)
    simp only [gatherExc, hff]

/-- Witness for C4 at a concrete two-request batch with an invalid
credential. -/
theorem C4_invalid_credential_batch_w :
    (∀ r ∈ [TransReq.mk "Hi" "hin_Deva", TransReq.mk "Bye" "tam_Taml"],
        invoke false (fun t _ => t) r = Except.error ZError.authenticationError)
      ∧ gatherExc (([TransReq.mk "Hi" "hin_Deva", TransReq.mk "Bye" "tam_Taml"]).map
          (invoke false (fun t _ => t))) [1, 0]
          = Except.error ZError.authenticationError :=
  C4_invalid_credential_batch (fun t _ => t)
    [TransReq.mk "Hi" "hin_Deva", TransReq.mk "Bye" "tam_Taml"] [1, 0] 0
    (by decide) (by decide)

/-- Claim C5: constructing a translation request with empty text yields
ValidationError at construction time and no network call is attempted —
the network-call count of the submission pipeline is 0.  The descriptor
constructor is modelled from the spec, as the zaban library is not part of
the example sources. -/
theorem C5_validation_at_construction (credValid : Bool)
    (tr : String → String → String) (targetLang : String) :
    mkTranslateReq "" targetLang = Except.error ZError.validationError
      ∧ submitOne credValid tr "" targetLang = (Except.error ZError.validationError, 0) := by
  exact ⟨rfl, rfl⟩

/-- Counterexample to claim C6 as stated: with concurrency limit 2 and item
durations 5, 1, 1, the slot of item 1 frees at time 1, but the code's
chunked execution starts item 2 only at time 5, once the whole first chunk
has completed; sliding-window admission would start it at time 1. -/
theorem C6_cex :
    (chunkedStarts 2 [5, 1, 1]).getD 2 0 = 5
      ∧ (slidingStarts 2 [5, 1, 1]).getD 2 0 = 1
      ∧ chunkedStarts 2 [5, 1, 1] ≠ slidingStarts 2 [5, 1, 1] := by
  exact ⟨by decide, by decide, by decide⟩

/-- Claim C6 (amended): the dispatcher does not use sliding-window
admission; it uses chunk-aligned admission: the input is split into fixed
groups of batch_size, and an invocation of a later group starts only after
every invocation of every earlier group has completed — whenever item i
lies in an earlier group than item j (i / C < j / C), item i's completion
time is at most item j's start time. -/
theorem C6_admission_chunk_aligned (C : Nat) (hC : 1 ≤ C) :
    ∀ (j : Nat) (ds : List Nat) (i : Nat), i < ds.length → j < ds.length → i / C < j / C →
      (chunkedStarts C ds).getD i 0 + ds.getD i 0 ≤ (chunkedStarts C ds).getD j 0 := by
  intro j
  induction j using Nat.strong_induction_on with
  | _ j ih =>
    intro ds i hi hj hij
    by_cases hjC : j < C
    · rw [Nat.div_eq_of_lt hjC] at hij
      exact absurd hij (Nat.not_lt_zero _)
    · push_neg at hjC
      by_cases hiC : i < C
      · rw [chunkedStarts_getD_lt C hC ds i hiC hi,
          chunkedStarts_getD_ge C hC ds j hjC hj, Nat.zero_add]
        have hdi : ds.getD i 0 ≤ maxL (ds.take C) := by
          have hmem : ds.getD i 0 ∈ ds.take C := by
            rw [← getD_take ds C i hiC]
            exact getD_mem _ _ (by rw [List.length_take]; exact lt_min hiC hi)
          exact le_maxL hmem
        omega
      · push_neg at hiC
        rw [chunkedStarts_getD_ge C hC ds i hiC hi,
          chunkedStarts_getD_ge C hC ds j hjC hj, ← getD_drop ds C i hiC, Nat.add_assoc]
        apply Nat.add_le_add_left
        refine ih (j - C) (by omega) (ds.drop C) (i - C)
          (by rw [List.length_drop]; omega) (by rw [List.length_drop]; omega) ?_
        have h1 : i / C = (i - C) / C + 1 := by
          conv_lhs => rw [← Nat.sub_add_cancel hiC]
          exact Nat.add_div_right _ (by omega)
        have h2 : j / C = (j - C) / C + 1 := by
          conv_lhs => rw [← Nat.sub_add_cancel hjC]
          exact Nat.add_div_right _ (by omega)
        omega

/-- Witness for C6 (amended): with limit 2 and durations 5, 1, 1, item 0 of
group 0 completes (time 5) no later than item 2 of group 1 starts (time 5). -/
theorem C6_admission_chunk_aligned_w :
    (chunkedStarts 2 [5, 1, 1]).getD 0 0 + ([5, 1, 1] : List Nat).getD 0 0
      ≤ (chunkedStarts 2 [5, 1, 1]).getD 2 0 :=
  C6_admission_chunk_aligned 2 (by decide) 2 [5, 1, 1] 0 (by decide) (by decide) (by decide)

/-- Claim C7: for every dataset, translate_dataset with concurrency limit 1
returns the same aggregated output as with limit 10 (same triples, same
order), and with limit 1 the invocations start in exactly submission order
(text-major over the target languages). -/
theorem C7_limit_one_equals_limit_ten (tr : String → String → String)
    (texts target_langs : List String) :
    translate_dataset tr texts target_langs 1 = translate_dataset tr texts target_langs 10
      ∧ startSeqDataset 1 texts target_langs
          = texts.flatMap (fun text =>
              target_langs.map (fun target_lang => (text, target_lang))) := by
  constructor
  · rw [translate_dataset_eq tr texts target_langs 1 (by omega),
      translate_dataset_eq tr texts target_langs 10 (by omega)]
  · unfold startSeqDataset
    rw [flatMap_chunks_eq, chunks_flatten 1 (by omega)]

/-- Claim C8: the dispatcher performs no deduplication or caching: a batch
whose first two request descriptors are identical still produces one
independent outcome per submission slot — the result carries an entry for
each of the two copies (slots 0 and 1) and its length counts both. -/
theorem C8_no_deduplication {α : Type u} {β : Type v} (eval : α → β) (r : α)
    (rest : List α) (order : List Nat)
    (hcov : ∀ k, k < (r :: r :: rest).length → k ∈ order) :
    gatherRun eval (r :: r :: rest) order
        = some (eval r) :: some (eval r) :: rest.map (fun x => some (eval x))
      ∧ (gatherRun eval (r :: r :: rest) order).length = rest.length + 2 := by
  have h := gatherRun_eq eval (r :: r :: rest) order hcov
  constructor
  · rw [h]
    rfl
  · rw [h]
    simp

/-- Witness for C8 at a concrete batch whose first two requests coincide. -/
theorem C8_no_deduplication_w :
    gatherRun (fun n : Nat => n * 2) [7, 7, 5] [2, 1, 0]
        = [some 14, some 14, some 10]
      ∧ (gatherRun (fun n : Nat => n * 2) [7, 7, 5] [2, 1, 0]).length = 3 := by
  have h := C8_no_deduplication (fun n : Nat => n * 2) 7 [5] [2, 1, 0] (by decide)
  exact ⟨by rw [h.1]; rfl, by rw [h.2]; rfl⟩

/-- Claim C9: in translate_file every blank (empty or whitespace-only) input
line is silently skipped — no request is issued for it and no output line
corresponds to it — and the output contains exactly one translated line,
with a trailing newline, per non-blank input line, in input order. -/
theorem C9_blank_lines_skipped (tr : String → String) (lines : List String)
    (C : Nat) (hC : 1 ≤ C) :
    translate_file tr lines C
        = (lines.filter (fun line => pyStrip line != "")).map
            (fun line => tr (pyStrip line) ++ "\n")
      ∧ (translate_file tr lines C).length
          = (lines.filter (fun line => pyStrip line != "")).length := by
  have h := translate_file_eq tr lines C hC
  exact ⟨h, by rw [h, List.length_map]⟩

/-- Witness for C9 on a concrete file with a whitespace-only and an empty
line, batch size 2. -/
theorem C9_blank_lines_skipped_w :
    1 ≤ 2
      ∧ translate_file (fun s => s) ["hello", "  ", "", "world"] 2
          = ["hello\n", "world\n"] := by
  refine ⟨by decide, ?_⟩
  rw [(C9_blank_lines_skipped (fun s => s) ["hello", "  ", "", "world"] 2 (by decide)).1]
  rfl

/-- Claim C10: translate_dataset, when every remote call succeeds, returns
exactly texts.length times target_langs.length triples, ordered by text
position first and target-language position second, each triple carrying
the submitted text, the submitted target language and its translation. -/
theorem C10_dataset_shape (tr : String → String → String)
    (texts target_langs : List String) (C : Nat) (hC : 1 ≤ C) :
    translate_dataset tr texts target_langs C
        = texts.flatMap (fun text =>
            target_langs.map (fun target_lang => (text, target_lang, tr text target_lang)))
      ∧ (translate_dataset tr texts target_langs C).length
          = texts.length * target_langs.length := by
  have h := translate_dataset_eq tr texts target_langs C hC
  refine ⟨h, ?_⟩
  rw [h]
  exact length_flatMap_map
    (fun text target_lang => (text, target_lang, tr text target_lang)) texts target_langs

/-- Witness for C10 on a concrete dataset of three texts and two languages,
batch size 2. -/
theorem C10_dataset_shape_w :
    1 ≤ 2
      ∧ translate_dataset (fun t lg => t ++ lg) ["a", "b", "c"] ["x", "y"] 2
          = [("a", "x", "ax"), ("a", "y", "ay"), ("b", "x", "bx"), ("b", "y", "by"),
             ("c", "x", "cx"), ("c", "y", "cy")]
      ∧ (translate_dataset (fun t lg => t ++ lg) ["a", "b", "c"] ["x", "y"] 2).length = 6 := by
  refine ⟨by decide, ?_, ?_⟩
  · rw [(C10_dataset_shape (fun t lg => t ++ lg) ["a", "b", "c"] ["x", "y"] 2 (by decide)).1]
    rfl
  · rw [(C10_dataset_shape (fun t lg => t ++ lg) ["a", "b", "c"] ["x", "y"] 2 (by decide)).2]
    rfl

end ZabanClient
